import Mathlib

/-!
# Verification of the clyro stylesheet theme-merge engine

Shallow embedding of `src/packages/cli/src/utils/theme-injector.ts`.

Text is modelled as `List Char` (`Txt`).  JavaScript string operations
(`split("\n")`, `trim`, `slice`, `indexOf`, first-occurrence `replace`)
and the four regular expressions of the source file

  - `IMPORT_REGEX = /^@import\s+.*?;$/gm`
  - `ROOT_REGEX   = /:root\s*\{([\s\S]*?)\}/m`
  - `DARK_REGEX   = /\.dark\s*\{([\s\S]*?)\}/m`
  - the per-line comment stripper `/\/\*.*?\*\//g`
  - the declaration matcher `/^--([\w-]+):\s*(.+);$/`

are implemented character by character with JavaScript's matching
semantics (leftmost match, greedy/lazy backtracking as written).  ASCII
assumptions: `\s` is modelled by the ASCII whitespace characters
(space, tab, newline, carriage return, vertical tab, form feed), the
multiline anchors recognise the line terminators `\n` and `\r`, and `.`
matches everything except `\n` and `\r`; the Unicode additions
(U+2028, U+2029, exotic spaces) are not modelled.

JavaScript objects (`Record<string, string>`) are modelled as ordered
association lists with unique keys; assigning to an existing key keeps
its position and updates the value, assigning a fresh key appends.
-/

/-- Program text: a JavaScript string as a list of characters. -/
abbrev Txt := List Char

/-- An ordered variable map, the model of the JS `Record<string, string>`
used for CSS custom properties (insertion ordered, unique keys). -/
abbrev VarMap := List (Txt × Txt)

/-- ASCII fragment of JavaScript's `\s` character class (also the set
trimmed by `String.prototype.trim`). -/
def isJsWs (c : Char) : Bool :=
  c = ' ' || c = '\t' || c = '\n' || c = '\r' ||
  c = Char.ofNat 11 || c = Char.ofNat 12

/-- Characters matched by the JavaScript regex `.` (no `s` flag):
everything except the line terminators. -/
def dotOk (c : Char) : Bool :=
  !(c = '\n' || c = '\r')

/-- JavaScript `\w` together with `-`, i.e. the class `[\w-]`. -/
def isWordHyphen (c : Char) : Bool :=
  c.isAlpha || c.isDigit || c = '_' || c = '-'

/-- Boolean prefix test (JS `String.prototype.startsWith`). -/
def beginsWith : Txt → Txt → Bool
  | [], _ => true
  | _ :: _, [] => false
  | p :: ps, c :: cs => p = c && beginsWith ps cs

/-- JS `String.prototype.indexOf` for a substring (first occurrence;
the empty pattern is found at index 0, as in JavaScript). -/
def subIndex (pat : Txt) : Txt → Option Nat
  | [] => if beginsWith pat [] then some 0 else none
  | s@(_ :: rest) =>
    if beginsWith pat s then some 0 else (subIndex pat rest).map (· + 1)

/-- Index of the first occurrence of a character. -/
def chFind (c : Char) : Txt → Option Nat
  | [] => none
  | a :: rest => if a = c then some 0 else (chFind c rest).map (· + 1)

/-- JS `String.prototype.indexOf(char, from)`: first index `≥ from`
holding `c`. -/
def chIndexFrom (c : Char) (s : Txt) (from_ : Nat) : Option Nat :=
  (chFind c (s.drop from_)).map (· + from_)

/-- JS `String.prototype.slice(a, b)` for `0 ≤ a ≤ b`. -/
def sliceTxt (s : Txt) (a b : Nat) : Txt :=
  (s.take b).drop a

/-- JS `String.prototype.split("\n")`. -/
def splitOnNl : Txt → List Txt
  | [] => [[]]
  | c :: rest =>
    if c = '\n' then [] :: splitOnNl rest
    else
      match splitOnNl rest with
      | [] => [[c]]
      | h :: t => (c :: h) :: t

/-- Left half of JS `trim`. -/
def trimLeftTxt (l : Txt) : Txt := l.dropWhile isJsWs

/-- Right half of JS `trim`. -/
def trimRightTxt (l : Txt) : Txt := (l.reverse.dropWhile isJsWs).reverse

/-- JS `String.prototype.trim` (ASCII whitespace). -/
def jsTrim (l : Txt) : Txt := trimRightTxt (trimLeftTxt l)

/-- JS `s.replace(pat, "")` for a *string* pattern: removes the first
occurrence of `pat` (for the empty pattern JavaScript splices `""` at
index 0, leaving `s` unchanged, which the `some 0` branch reproduces). -/
def replaceOnce (s pat : Txt) : Txt :=
  match subIndex pat s with
  | none => s
  | some i => s.take i ++ s.drop (i + pat.length)

/-- JS `Array.prototype.join(sep)`. -/
def joinWith (sep : Txt) : List Txt → Txt
  | [] => []
  | [x] => x
  | x :: y :: xs => x ++ sep ++ joinWith sep (y :: xs)

/-- JS object assignment `m[k] = v`: update in place if the key exists,
append otherwise. -/
def insertVar : VarMap → Txt → Txt → VarMap
  | [], k, v => [(k, v)]
  | (k', v') :: rest, k, v =>
    if k' = k then (k', v) :: rest else (k', v') :: insertVar rest k v

/-- Key lookup in a `VarMap` (first matching key). -/
def lookupVar : VarMap → Txt → Option Txt
  | [], _ => none
  | (k', v') :: rest, k => if k' = k then some v' else lookupVar rest k

/-- Keys of a `VarMap`, in order. -/
def varKeys (m : VarMap) : List Txt := m.map Prod.fst

/-- JS object spread `{ ...core, ...user }`: start from `core` and
assign every `user` entry in order. -/
def mergeVars (core user : VarMap) : VarMap :=
  user.foldl (fun m kv => insertVar m kv.1 kv.2) core

/-! ## The comment stripper `/\/\*.*?\*\//g`

`findCloseRem l` scans for the lazily-nearest `*/`: it succeeds when a
`*/` occurs with only `.`-matchable characters before it and returns
the remainder after that `*/`.  `stripCGo` performs the global replace;
the fuel argument (instantiated with the length of the input, which
bounds the number of scanning steps) only makes the recursion
structural. -/

/-- Remainder after the lazily-first `*/`, if `.*?\*\/` matches here:
the `*/` test is tried before consuming the character as `.`. -/
def findCloseRem : Txt → Option Txt
  | [] => none
  | a :: rest =>
    if a = '*' ∧ rest.head? = some '/' then some rest.tail
    else if dotOk a then findCloseRem rest else none

/-- Global removal of `/\*.*?\*\//` matches, scanning left to right and
resuming after each removed match, as JS `replace` with the `g` flag.
At a `/*` whose `.*?\*\/` has no match the engine advances one
character. -/
def stripCGo : Nat → Txt → Txt
  | 0, l => l
  | _ + 1, [] => []
  | fuel + 1, a :: rest =>
    if a = '/' ∧ rest.head? = some '*' then
      match findCloseRem rest.tail with
      | some rem => stripCGo fuel rem
      | none => a :: stripCGo fuel rest
    else a :: stripCGo fuel rest

/-- `line.replace(/\/\*.*?\*\//g, "")`. -/
def stripComments (l : Txt) : Txt := stripCGo l.length l

/-! ## The declaration matcher `/^--([\w-]+):\s*(.+);$/`

After the literal `--`, the greedy `[\w-]+` takes the maximal run (a
shorter run would put a word character where `:` is required, so no
backtracking succeeds).  After `:`, the engine tries the greedy `\s*`
from its maximal width downwards; `(.+);$` then needs the final
character to be `;` preceded by a non-empty run of `.`-matchable
characters. -/

/-- Can `(.+);$` match this remainder?  Returns the captured group. -/
def valCheck (r : Txt) : Option Txt :=
  if r.getLast? = some ';' && !r.dropLast.isEmpty && r.dropLast.all dotOk
  then some r.dropLast else none

/-- Backtracking over the width of `\s*`, from `k` down to `0`. -/
def valTry (rest : Txt) : Nat → Option Txt
  | 0 => valCheck rest
  | k + 1 =>
    match valCheck (rest.drop (k + 1)) with
    | some v => some v
    | none => valTry rest k

/-- Match `\s*(.+);$` against the text following the colon. -/
def valAfterColon (rest : Txt) : Option Txt :=
  valTry rest (rest.takeWhile isJsWs).length

/-- Full-line match of `/^--([\w-]+):\s*(.+);$/`, returning the
captured key (with the `--` prefix re-attached, as the source does with
`--${m[1]}`) and the raw captured value. -/
def matchDecl (line : Txt) : Option (Txt × Txt) :=
  match line with
  | '-' :: '-' :: t =>
    let w := t.takeWhile isWordHyphen
    if w.isEmpty then none else
      match t.drop w.length with
      | ':' :: rest =>
        match valAfterColon rest with
        | some v => some ('-' :: '-' :: w, v)
        | none => none
      | _ => none
  | _ => none

/-- The `forEach` body of `extractVars`: on a match record
`vars[key] = value.trim()`, otherwise leave the map unchanged. -/
def lineStep (m : VarMap) (l : Txt) : VarMap :=
  match matchDecl l with
  | some kv => insertVar m kv.1 (jsTrim kv.2)
  | none => m

/-- `extractVars` (theme-injector.ts, lines 17–27): split the block into
lines, `trim` then strip inline comments, and record every matching
`--name: value;` declaration, later lines overwriting earlier ones. -/
def extractVars (block : Txt) : VarMap :=
  ((splitOnNl block).map (fun l => stripComments (jsTrim l))).foldl lineStep []

/-- One rendered declaration line of `buildBlock`:
`"  ${key}: ${val};"`. -/
def declRender (kv : Txt × Txt) : Txt :=
  ("  ").data ++ kv.1 ++ (": ").data ++ kv.2 ++ (";").data

/-- `buildBlock` (theme-injector.ts, lines 30–35):
`"${selector} {\n${body}\n}"` with the entries joined by `"\n"`. -/
def buildBlock (sel : Txt) (vars : VarMap) : Txt :=
  sel ++ (" \x7b\n").data ++
    joinWith (("\n").data) (vars.map declRender) ++ ("\n\x7d").data

/-! ## The brace-counting block extractor -/

/-- One step of the brace counter (`{` is +1, `}` is −1). -/
def braceStep (d : Nat) (c : Char) : Nat :=
  if c = '{' then d + 1 else if c = '}' then d - 1 else d

/-- The `while` loop of `extractBlock`: starting at depth `d`, the
number of characters consumed until the depth reaches 0 or the input
ends. -/
def braceScan : Nat → Txt → Nat
  | _, [] => 0
  | d, c :: rest => if d = 0 then 0 else braceScan (braceStep d c) rest + 1

/-- `extractBlock` (theme-injector.ts, lines 38–55). -/
def extractBlock (content keyword : Txt) : Txt :=
  match subIndex keyword content with
  | none => []
  | some s =>
    match chIndexFrom '{' content s with
    | none => []
    | some q => sliceTxt content s (q + 1 + braceScan 1 (content.drop (q + 1)))

/-- Depth after processing the first `j` characters, used to *state*
the brace-counting contract independently of the loop. -/
def depthRun (d : Nat) (l : Txt) : Nat := l.foldl braceStep d

/-! ## The block regexes `/:root\s*\{([\s\S]*?)\}/m` and
`/\.dark\s*\{([\s\S]*?)\}/m`

Both have the shape `LIT\s*\{([\s\S]*?)\}` for a literal `LIT`.  At a
candidate position the engine matches the literal, the maximal
whitespace run (shorter runs put a whitespace character where `{` is
required, so backtracking never helps), the `{`, and then the lazy
group runs to the first `}`; if no `}` follows, the attempt fails and
the engine moves one position to the right. -/

/-- Attempt `sel\s*\{([\s\S]*?)\}` at the current position.  Returns
(match length, captured group). -/
def selAttempt (sel s : Txt) : Option (Nat × Txt) :=
  if beginsWith sel s then
    let t := s.drop sel.length
    let w := (t.takeWhile isJsWs).length
    let u := t.drop w
    if u.head? = some '{' then
      match chFind '}' u.tail with
      | some g => some (sel.length + w + 1 + g + 1, u.tail.take g)
      | none => none
    else none
  else none

/-- Leftmost match of `sel\s*\{([\s\S]*?)\}`:
(start index, match length, captured group). -/
def selSearch (sel : Txt) : Txt → Option (Nat × Nat × Txt)
  | [] =>
    match selAttempt sel [] with
    | some r => some (0, r.1, r.2)
    | none => none
  | s@(_ :: rest) =>
    match selAttempt sel s with
    | some r => some (0, r.1, r.2)
    | none => (selSearch sel rest).map (fun r => (r.1 + 1, r.2.1, r.2.2))

/-- `(content.match(REGEX) || [])[1] || ""` for a block regex. -/
def selGroupOf (sel s : Txt) : Txt :=
  match selSearch sel s with
  | some r => r.2.2
  | none => []

/-- `content.replace(REGEX, "")` for a block regex (first match only:
neither regex carries the `g` flag). -/
def replaceSelOnce (sel s : Txt) : Txt :=
  match selSearch sel s with
  | some r => s.take r.1 ++ s.drop (r.1 + r.2.1)
  | none => s

/-! ## The import-line regex `/^@import\s+.*?;$/gm`

A match starts at a line start (`^`, multiline), reads the literal
`@import`, at least one whitespace character (`\s+`, greedy, tried from
the maximal run downwards), then the lazy `.*?` runs to the first `;`
that sits at a line end (`$`, multiline). -/

/-- Lazy scan for `;` at a line end; returns the number of characters
consumed including the `;`. -/
def semiScan : Txt → Option Nat
  | [] => none
  | ';' :: rest =>
    if rest.isEmpty || rest.head? = some '\n' || rest.head? = some '\r'
    then some 1
    else (semiScan rest).map (· + 1)
  | c :: rest => if dotOk c then (semiScan rest).map (· + 1) else none

/-- Backtracking over the width of `\s+`, from `k` down to `1`. -/
def impTryW (t : Txt) : Nat → Option Nat
  | 0 => none
  | k + 1 =>
    match semiScan (t.drop (k + 1)) with
    | some m => some (7 + (k + 1) + m)
    | none => impTryW t k

/-- Attempt `@import\s+.*?;$` at a line-start position; returns the
match length. -/
def impAttempt (s : Txt) : Option Nat :=
  if beginsWith (("@import").data) s then
    let t := s.drop 7
    impTryW t (t.takeWhile isJsWs).length
  else none

/-- Global multiline removal of `^@import\s+.*?;$` matches.  The Boolean
tracks whether the current position is a line start; the fuel (the
input length, which bounds the number of steps) makes the recursion
structural. -/
def remImpGo : Nat → Bool → Txt → Txt
  | 0, _, l => l
  | _ + 1, _, [] => []
  | fuel + 1, atStart, s@(c :: rest) =>
    match (if atStart then impAttempt s else none) with
    | some len => remImpGo fuel false (s.drop len)
    | none => c :: remImpGo fuel (c = '\n' || c = '\r') rest

/-- `cssContent.replace(IMPORT_REGEX, "")`. -/
def removeImportMatches (s : Txt) : Txt := remImpGo s.length true s

/-! ## The assembler `injectclyroTheme` (theme-injector.ts, lines 62–156)

The file I/O is split off into `runInject`; `mergeText` is the pure
text transformation applied between the read and the write, made
explicit in the template text so the template can be supplied. -/

/-- `REQUIRED_IMPORTS` (theme-injector.ts, lines 11–14). -/
def requiredImportLines : List Txt :=
  [("@import \"tailwindcss\";").data, ("@import \"tw-animate-css\";").data]

/-- STEP 1, first half: every line whose trimmed form starts with
`@import`, trimmed, in encounter order. -/
def capturedImportLines (userText : Txt) : List Txt :=
  (splitOnNl userText).filterMap
    (fun l =>
      let t := jsTrim l
      if beginsWith (("@import").data) t then some t else none)

/-- STEP 1, second half: append each required import not already
present in the list (`importLines.includes(req)` check). -/
def withRequired (captured : List Txt) : List Txt :=
  requiredImportLines.foldl
    (fun acc req => if req ∈ acc then acc else acc ++ [req]) captured

/-- The final ordered import list of STEP 1. -/
def finalImportList (userText : Txt) : List Txt :=
  withRequired (capturedImportLines userText)

/-- The working content after the temporary import removal:
`cssContent.replace(IMPORT_REGEX, "").trim()`. -/
def workingAfterImports (userText : Txt) : Txt :=
  jsTrim (removeImportMatches userText)

/-- STEP 5: strip the old `:root`, `.dark`, `@theme inline` and
`@layer base` sections from the working content and trim.  As in the
source, both `extractBlock` calls run on the working content *before*
any of the chained replacements. -/
def strippedWorking (userText : Txt) : Txt :=
  let w := workingAfterImports userText
  jsTrim (replaceOnce
    (replaceOnce
      (replaceSelOnce ((".dark").data) (replaceSelOnce ((":root").data) w))
      (extractBlock w (("@theme inline").data)))
    (extractBlock w (("@layer base").data)))

/-- Pieces kept by `[...].filter(Boolean)`. -/
def filterNonempty (xs : List Txt) : List Txt :=
  xs.filter (fun x => !x.isEmpty)

/-- `[...].filter(Boolean).join("\n\n")`. -/
def joinTwoNl (xs : List Txt) : Txt :=
  joinWith (("\n\n").data) (filterNonempty xs)

/-- The pure text transformation of `injectclyroTheme` (STEPs 1–7 and
the final `finalCss.trim() + "\n"`), parameterised by the template
text `clyro_REACT_THEME_BLOCK`. -/
def mergeText (tpl userText : Txt) : Txt :=
  let importsJoined := joinWith (("\n").data) (finalImportList userText)
  let w := workingAfterImports userText
  let coreRootVars := extractVars (selGroupOf ((":root").data) tpl)
  let coreDarkVars := extractVars (selGroupOf ((".dark").data) tpl)
  let coreThemeInline := extractBlock tpl (("@theme inline").data)
  let coreLayerBase := extractBlock tpl (("@layer base").data)
  let mergedRootBlock :=
    buildBlock ((":root").data)
      (mergeVars coreRootVars (extractVars (selGroupOf ((":root").data) w)))
  let mergedDarkBlock :=
    buildBlock ((".dark").data)
      (mergeVars coreDarkVars (extractVars (selGroupOf ((".dark").data) w)))
  let clyroBlock := joinTwoNl
    [coreThemeInline, [], mergedRootBlock, [], mergedDarkBlock, [], coreLayerBase]
  let finalCss := joinTwoNl
    [importsJoined, [], clyroBlock, [], strippedWorking userText]
  jsTrim finalCss ++ ['\n']

/-- Modelled from the spec: the fixed built-in template stylesheet
`clyro_REACT_THEME_BLOCK` (imported from `../constants/theme-template.js`,
a file of this repository that is not under `src/`).  Per spec §6 it is
a constant stylesheet text containing exactly one `:root` block, one
`.dark` block, one `@theme inline` block and one `@layer base` block. -/
def clyroTemplate : Txt :=
  ("@theme inline \x7b\n  --font-sans: var(--font);\n\x7d\n\n:root \x7b\n  --p: b;\n\x7d\n\n.dark \x7b\n  --p: d;\n\x7d\n\n@layer base \x7b\n  body \x7b\n  \x7d\n\x7d\n").data

/-- Outcome reported by the engine (logger side channel). -/
inductive InjectOutcome where
  | notFound
  | merged
deriving DecidableEq, Repr

/-- The full engine on one file, against the built-in template. -/
def injectPure (userText : Txt) : Txt := mergeText clyroTemplate userText

/-- `injectclyroTheme` with the filesystem made explicit: a map from
paths to file contents.  A missing target returns the state unchanged
with the not-found outcome (the `fs.existsSync` guard, lines 62–66);
otherwise the target file is overwritten with the merged text. -/
def runInject (files : Txt → Option Txt) (cssPath : Txt) :
    (Txt → Option Txt) × InjectOutcome :=
  match files cssPath with
  | none => (files, InjectOutcome.notFound)
  | some content =>
    (fun p => if p = cssPath then some (injectPure content) else files p,
     InjectOutcome.merged)

/-- JS `String.prototype.includes`: substring test, via `indexOf`. -/
def containsTxt (s pat : Txt) : Bool := (subIndex pat s).isSome

/-- The full text matched by a block regex (`match[0]`), i.e. the
section the assembler's regex-based extraction and stripping operate
on. -/
def selMatchedSection (sel s : Txt) : Option Txt :=
  (selSearch sel s).map (fun r => sliceTxt s r.1 (r.1 + r.2.1))

/-- A rendered declaration without the two-space indent,
`"${key}: ${val};"`; `declRender kv = "  " ++ declCore kv.1 kv.2`. -/
def declCore (k v : Txt) : Txt :=
  k ++ ':' :: ' ' :: (v ++ [(';' : Char)])

/-! # Lemmas about `insertVar`, `lookupVar` and `mergeVars` -/

theorem varKeys_nil : varKeys [] = [] := rfl

theorem varKeys_cons (kv : Txt × Txt) (m : VarMap) :
    varKeys (kv :: m) = kv.1 :: varKeys m := rfl

theorem varKeys_append (a b : VarMap) :
    varKeys (a ++ b) = varKeys a ++ varKeys b := by
  simp [varKeys]

theorem insertVar_of_not_mem (m : VarMap) (k v : Txt) (h : k ∉ varKeys m) :
    insertVar m k v = m ++ [(k, v)] := by
  induction m with
  | nil => rfl
  | cons kv rest ih =>
    obtain ⟨k', v'⟩ := kv
    rw [varKeys_cons, List.mem_cons] at h
    push_neg at h
    simp only [insertVar, if_neg (Ne.symm h.1)]
    rw [ih h.2]
    simp

theorem insertVar_keys_of_mem (m : VarMap) (k v : Txt) (h : k ∈ varKeys m) :
    varKeys (insertVar m k v) = varKeys m := by
  induction m with
  | nil => simp [varKeys_nil] at h
  | cons kv rest ih =>
    obtain ⟨k', v'⟩ := kv
    by_cases hk : k' = k
    · simp [insertVar, hk, varKeys_cons]
    · have h' : k ∈ varKeys rest := by
        rw [varKeys_cons, List.mem_cons] at h
        rcases h with h | h
        · exact absurd h.symm hk
        · exact h
      simp only [insertVar, if_neg hk, varKeys_cons]
      rw [ih h']

theorem lookupVar_insert_self (m : VarMap) (k v : Txt) :
    lookupVar (insertVar m k v) k = some v := by
  induction m with
  | nil => simp [insertVar, lookupVar]
  | cons kv rest ih =>
    obtain ⟨k', v'⟩ := kv
    by_cases hk : k' = k
    · simp [insertVar, hk, lookupVar]
    · simp [insertVar, hk, lookupVar, ih]

theorem lookupVar_insert_other (m : VarMap) (k v k' : Txt) (h : k' ≠ k) :
    lookupVar (insertVar m k v) k' = lookupVar m k' := by
  induction m with
  | nil => simp [insertVar, lookupVar, Ne.symm h]
  | cons kv rest ih =>
    obtain ⟨k0, v0⟩ := kv
    by_cases hk : k0 = k
    · subst hk
      simp [insertVar, lookupVar, Ne.symm h]
    · simp [insertVar, hk, lookupVar, ih]

theorem lookupVar_of_not_mem (m : VarMap) (k : Txt) (h : k ∉ varKeys m) :
    lookupVar m k = none := by
  induction m with
  | nil => rfl
  | cons kv rest ih =>
    obtain ⟨k', v'⟩ := kv
    rw [varKeys_cons, List.mem_cons] at h
    push_neg at h
    simp only [lookupVar, if_neg (Ne.symm h.1)]
    exact ih h.2

theorem mergeVars_cons (tpl : VarMap) (k v : Txt) (us : VarMap) :
    mergeVars tpl ((k, v) :: us) = mergeVars (insertVar tpl k v) us := rfl

theorem mergeVars_keys (user : VarMap) : ∀ tpl : VarMap,
    (varKeys user).Nodup →
    varKeys (mergeVars tpl user) =
      varKeys tpl ++ (varKeys user).filter (fun k => k ∉ varKeys tpl) := by
  induction user with
  | nil => intro tpl _; simp [mergeVars, varKeys_nil]
  | cons kv us ih =>
    intro tpl hnd
    obtain ⟨k, v⟩ := kv
    rw [varKeys_cons, List.nodup_cons] at hnd
    rw [mergeVars_cons, ih (insertVar tpl k v) hnd.2]
    by_cases hmem : k ∈ varKeys tpl
    · rw [insertVar_keys_of_mem tpl k v hmem, varKeys_cons, List.filter_cons]
      simp [hmem]
    · rw [insertVar_of_not_mem tpl k v hmem, varKeys_append, varKeys_cons,
        varKeys_nil]
      have hfil : (varKeys us).filter (fun k' => k' ∉ varKeys tpl ++ [k]) =
          (varKeys us).filter (fun k' => k' ∉ varKeys tpl) := by
        apply List.filter_congr
        intro k' hk'
        have hne : k' ≠ k := fun he => hnd.1 (he ▸ hk')
        simp [List.mem_append, hne]
      rw [hfil, varKeys_cons, List.filter_cons]
      simp [hmem, List.append_assoc]

theorem mergeVars_lookup (user : VarMap) : ∀ tpl : VarMap,
    (varKeys user).Nodup → ∀ k : Txt,
    lookupVar (mergeVars tpl user) k =
      if k ∈ varKeys user then lookupVar user k else lookupVar tpl k := by
  induction user with
  | nil => intro tpl _ k; simp [mergeVars, varKeys_nil, lookupVar]
  | cons kv us ih =>
    intro tpl hnd k
    obtain ⟨k0, v0⟩ := kv
    rw [varKeys_cons, List.nodup_cons] at hnd
    rw [mergeVars_cons, ih (insertVar tpl k0 v0) hnd.2 k]
    by_cases hk : k = k0
    · subst hk
      rw [if_neg hnd.1, lookupVar_insert_self]
      rw [if_pos (by rw [varKeys_cons]; exact List.mem_cons_self _ _)]
      simp [lookupVar]
    · by_cases hin : k ∈ varKeys us
      · rw [if_pos hin,
          if_pos (by rw [varKeys_cons]; exact List.mem_cons_of_mem _ hin)]
        simp [lookupVar, Ne.symm hk]
      · rw [if_neg hin, lookupVar_insert_other tpl k0 v0 k hk,
          if_neg (by rw [varKeys_cons, List.mem_cons]; push_neg; exact ⟨hk, hin⟩)]

/-! # Lemmas about the brace-counting scan -/

theorem braceScan_zeroD (l : Txt) : braceScan 0 l = 0 := by
  cases l <;> simp [braceScan]

theorem depthRun_nil (d : Nat) : depthRun d [] = d := rfl

theorem depthRun_cons (d : Nat) (c : Char) (l : Txt) :
    depthRun d (c :: l) = depthRun (braceStep d c) l := rfl

/-- The loop of `extractBlock` stops at the first index where the
depth counter reaches 0, or consumes the whole input when the depth
never reaches 0. -/
theorem braceScan_minimal (rest : Txt) : ∀ d : Nat, 0 < d →
    (depthRun d (rest.take (braceScan d rest)) = 0
      ∧ ∀ j < braceScan d rest, depthRun d (rest.take j) ≠ 0)
    ∨ (braceScan d rest = rest.length
      ∧ ∀ j ≤ rest.length, depthRun d (rest.take j) ≠ 0) := by
  induction rest with
  | nil =>
    intro d hd
    right
    refine ⟨rfl, ?_⟩
    intro j _
    simp only [List.take_nil, depthRun_nil]
    omega
  | cons c r ih =>
    intro d hd
    have hne : ¬d = 0 := by omega
    rw [show braceScan d (c :: r) = braceScan (braceStep d c) r + 1 from by
      simp [braceScan, hne]]
    by_cases hstep : braceStep d c = 0
    · left
      rw [show braceScan (braceStep d c) r = 0 from by
        rw [hstep]; exact braceScan_zeroD r]
      constructor
      · simp [List.take_succ_cons, depthRun_cons, depthRun_nil, hstep]
      · intro j hj
        have hj0 : j = 0 := by omega
        subst hj0
        simp only [List.take_zero, depthRun_nil]
        omega
    · have hpos : 0 < braceStep d c := Nat.pos_of_ne_zero hstep
      rcases ih (braceStep d c) hpos with ⟨h1, h2⟩ | ⟨h1, h2⟩
      · left
        constructor
        · simpa [List.take_succ_cons, depthRun_cons] using h1
        · intro j hj
          cases j with
          | zero =>
            simp only [List.take_zero, depthRun_nil]
            omega
          | succ j' =>
            have := h2 j' (by omega)
            simpa [List.take_succ_cons, depthRun_cons] using this
      · right
        constructor
        · simp [h1]
        · intro j hj
          cases j with
          | zero =>
            simp only [List.take_zero, depthRun_nil]
            omega
          | succ j' =>
            have := h2 j' (by simp at hj; omega)
            simpa [List.take_succ_cons, depthRun_cons] using this

/-! # Lemmas about whitespace trimming -/

theorem dropWhile_length_le (p : Char → Bool) (l : Txt) :
    (l.dropWhile p).length ≤ l.length := by
  induction l with
  | nil => simp
  | cons c l' ih =>
    rw [List.dropWhile_cons]
    split
    · exact le_trans ih (by simp)
    · simp

theorem dropWhile_append_of_all (p : Char → Bool) (a b : Txt)
    (ha : ∀ c ∈ a, p c = true) :
    (a ++ b).dropWhile p = b.dropWhile p := by
  induction a with
  | nil => rfl
  | cons c a' ih =>
    rw [List.cons_append, List.dropWhile_cons, if_pos (ha c (List.mem_cons_self c a'))]
    exact ih fun c' hc' => ha c' (List.mem_cons_of_mem _ hc')

theorem dropWhile_concat_of_neg (p : Char → Bool) (l : Txt) (c : Char)
    (hc : p c = false) :
    (l ++ [c]).dropWhile p = l.dropWhile p ++ [c] := by
  induction l with
  | nil => simp [List.dropWhile_cons, hc]
  | cons a l' ih =>
    by_cases ha : p a = true
    · rw [List.cons_append, List.dropWhile_cons, if_pos ha, ih,
        List.dropWhile_cons, if_pos ha]
    · rw [List.cons_append, List.dropWhile_cons, if_neg ha,
        List.dropWhile_cons, if_neg ha, List.cons_append]

theorem dropWhile_eq_self_of_length (p : Char → Bool) (l : Txt)
    (h : (l.dropWhile p).length = l.length) : l.dropWhile p = l := by
  cases l with
  | nil => rfl
  | cons c l' =>
    by_cases hc : p c = true
    · exfalso
      rw [List.dropWhile_cons, if_pos hc] at h
      have := dropWhile_length_le p l'
      simp only [List.length_cons] at h
      omega
    · rw [List.dropWhile_cons, if_neg hc]

theorem trimRight_concat_of_neg (l : Txt) (c : Char) (hc : isJsWs c = false) :
    trimRightTxt (l ++ [c]) = l ++ [c] := by
  simp [trimRightTxt, List.reverse_append, List.dropWhile_cons, hc]

theorem jsTrim_fixed_left (v : Txt) (h : jsTrim v = v) :
    v.dropWhile isJsWs = v := by
  have h2 : (trimRightTxt (trimLeftTxt v)).length ≤ (trimLeftTxt v).length := by
    simpa [trimRightTxt] using dropWhile_length_le isJsWs (trimLeftTxt v).reverse
  have h1 : (trimLeftTxt v).length ≤ v.length := dropWhile_length_le _ v
  have h3 : (trimRightTxt (trimLeftTxt v)).length = v.length := by
    rw [show trimRightTxt (trimLeftTxt v) = v from h]
  unfold trimLeftTxt at h1 h2 h3
  exact dropWhile_eq_self_of_length _ _ (by omega)

theorem jsTrim_fixed_right (v : Txt) (h : jsTrim v = v) :
    trimRightTxt v = v := by
  have hl := jsTrim_fixed_left v h
  unfold jsTrim at h
  rw [show trimLeftTxt v = v from hl] at h
  exact h

theorem head_not_ws_of_fixed (v : Txt) (h : v.dropWhile isJsWs = v) :
    ∀ c v', v = c :: v' → isJsWs c = false := by
  intro c v' he
  subst he
  by_cases hc : isJsWs c = true
  · exfalso
    rw [List.dropWhile_cons, if_pos hc] at h
    have := dropWhile_length_le isJsWs v'
    have := congrArg List.length h
    simp only [List.length_cons] at this
    omega
  · simpa using hc

/-! # Lemmas about `splitOnNl` and `joinWith` -/

theorem splitOnNl_ne_nil (l : Txt) : splitOnNl l ≠ [] := by
  rw [splitOnNl.eq_def]
  split
  · simp
  · split
    · simp
    · split <;> simp

theorem splitOnNl_append_nlfree (a b : Txt) (ha : '\n' ∉ a) :
    splitOnNl (a ++ '\n' :: b) = a :: splitOnNl b := by
  induction a with
  | nil => simp [splitOnNl]
  | cons c a' ih =>
    have hc : ¬c = '\n' := fun he => ha (he ▸ List.mem_cons_self c a')
    have ha' : '\n' ∉ a' := fun hm => ha (List.mem_cons_of_mem _ hm)
    rw [List.cons_append, splitOnNl.eq_def]
    simp only [if_neg hc]
    rw [ih ha']

theorem splitOnNl_joinWith (xs : List Txt) (b : Txt)
    (hxs : ∀ x ∈ xs, '\n' ∉ x) (hne : xs ≠ []) :
    splitOnNl (joinWith [ '\n' ] xs ++ '\n' :: b) = xs ++ splitOnNl b := by
  induction xs with
  | nil => exact absurd rfl hne
  | cons x xs' ih =>
    cases xs' with
    | nil =>
      rw [show joinWith [ '\n' ] [x] = x from rfl,
        splitOnNl_append_nlfree x b (hxs x (List.mem_cons_self x []))]
      rfl
    | cons y ys =>
      rw [show joinWith [ '\n' ] (x :: y :: ys) =
          x ++ [ '\n' ] ++ joinWith [ '\n' ] (y :: ys) from rfl]
      have hx : '\n' ∉ x := hxs x (List.mem_cons_self _ _)
      have hrest : ∀ z ∈ y :: ys, '\n' ∉ z :=
        fun z hz => hxs z (List.mem_cons_of_mem _ hz)
      rw [List.append_assoc, List.append_assoc]
      rw [show ([ '\n' ] : Txt) ++ (joinWith [ '\n' ] (y :: ys) ++ '\n' :: b) =
          '\n' :: (joinWith [ '\n' ] (y :: ys) ++ '\n' :: b) from rfl]
      rw [splitOnNl_append_nlfree x _ hx, ih hrest (by simp)]
      rfl

/-! # Lemmas about the comment stripper -/

theorem stripCGo_nil (fuel : Nat) : stripCGo fuel [] = [] := by
  cases fuel <;> rfl

/-- A `*/` inside `x ++ [c]` cannot end at the final character `c`
(which is not `/`), so the remainder after a found `*/` still ends
with `c`. -/
theorem findCloseRem_concat (c : Char) (hc : c ≠ '/') : ∀ (x rem : Txt),
    findCloseRem (x ++ [c]) = some rem → ∃ r2, rem = r2 ++ [c] := by
  intro x
  induction x with
  | nil =>
    intro rem h
    rw [List.nil_append] at h
    simp [findCloseRem] at h
  | cons a x' ih =>
    intro rem h
    rw [List.cons_append] at h
    simp only [findCloseRem] at h
    by_cases hclose : a = '*' ∧ (x' ++ [c]).head? = some '/'
    · rw [if_pos hclose] at h
      -- the `/` of the close is inside `x' ++ [c]`, and since `c ≠ '/'`
      -- it is not the final character, so `x'` is nonempty
      cases x' with
      | nil =>
        exfalso
        rcases hclose with ⟨-, h2⟩
        rw [List.nil_append, List.head?_cons] at h2
        exact hc (Option.some.inj h2)
      | cons b x'' =>
        rw [List.cons_append, List.tail_cons] at h
        exact ⟨x'', (Option.some.inj h).symm⟩
    · rw [if_neg hclose] at h
      by_cases hd : dotOk a = true
      · rw [if_pos hd] at h
        exact ih rem h
      · rw [if_neg hd] at h
        exact Option.noConfusion h

/-- The global comment replace never removes a final character that is
neither `/` nor `*` (every removed segment ends with `*/`). -/
theorem stripCGo_concat (c : Char) (hc1 : c ≠ '/') (hc2 : c ≠ '*') :
    ∀ (fuel : Nat) (l : Txt), ∃ out, stripCGo fuel (l ++ [c]) = out ++ [c] := by
  intro fuel
  induction fuel with
  | zero => exact fun l => ⟨l, rfl⟩
  | succ n ih =>
    intro l
    cases l with
    | nil =>
      refine ⟨[], ?_⟩
      rw [List.nil_append]
      simp only [stripCGo]
      have hand : ¬(c = '/' ∧ (([] : Txt)).head? = some '*') := by
        rintro ⟨-, h2⟩
        exact Option.noConfusion h2
      rw [if_neg hand, stripCGo_nil]
    | cons a l' =>
      rw [List.cons_append]
      simp only [stripCGo]
      by_cases hopen : a = '/' ∧ (l' ++ [c]).head? = some '*'
      · rw [if_pos hopen]
        cases l' with
        | nil =>
          exfalso
          rcases hopen with ⟨-, h2⟩
          rw [List.nil_append, List.head?_cons] at h2
          exact hc2 (Option.some.inj h2)
        | cons b l'' =>
          rw [List.cons_append, List.tail_cons]
          cases hfc : findCloseRem (l'' ++ [c]) with
          | some rem =>
            obtain ⟨r2, hr2⟩ := findCloseRem_concat c hc1 l'' rem hfc
            subst hr2
            obtain ⟨out, hout⟩ := ih r2
            exact ⟨out, hout⟩
          | none =>
            obtain ⟨out, hout⟩ := ih (b :: l'')
            refine ⟨a :: out, ?_⟩
            rw [List.cons_append] at hout
            rw [hout]
            rfl
      · rw [if_neg hopen]
        obtain ⟨out, hout⟩ := ih l'
        refine ⟨a :: out, ?_⟩
        rw [hout]
        rfl

theorem stripComments_concat (l : Txt) (c : Char) (hc1 : c ≠ '/')
    (hc2 : c ≠ '*') : ∃ out, stripComments (l ++ [c]) = out ++ [c] :=
  stripCGo_concat c hc1 hc2 (l ++ [c]).length l

/-! # Lemmas about the declaration matcher -/

theorem takeWhile_append_of_all (p : Char → Bool) (w : Txt) (x : Char)
    (r : Txt) (hw : ∀ c ∈ w, p c = true) (hx : p x = false) :
    (w ++ x :: r).takeWhile p = w := by
  induction w with
  | nil => simp [List.takeWhile_cons, hx]
  | cons c w' ih =>
    rw [List.cons_append, List.takeWhile_cons,
      if_pos (hw c (List.mem_cons_self c w')),
      ih fun c' hc' => hw c' (List.mem_cons_of_mem _ hc')]

theorem valCheck_concat (v : Txt) (hv : v ≠ []) (hd : v.all dotOk = true) :
    valCheck (v ++ [(';' : Char)]) = some v := by
  unfold valCheck
  rw [List.getLast?_concat, List.dropLast_concat]
  simp [List.isEmpty_eq_false.mpr hv, hd]

theorem valAfterColon_space (v : Txt) (hv : v ≠ []) (hd : v.all dotOk = true)
    (hh : v.dropWhile isJsWs = v) :
    valAfterColon ((' ' : Char) :: (v ++ [(';' : Char)])) = some v := by
  obtain ⟨d, v', rfl⟩ : ∃ d v', v = d :: v' := by
    cases v with
    | nil => exact absurd rfl hv
    | cons d v' => exact ⟨d, v', rfl⟩
  have hdws : isJsWs d = false := head_not_ws_of_fixed _ hh d v' rfl
  unfold valAfterColon
  rw [show ((' ' : Char) :: (d :: v' ++ [(';' : Char)])).takeWhile isJsWs =
      [' '] from by
    rw [List.takeWhile_cons, if_pos (by decide), List.cons_append,
      List.takeWhile_cons, if_neg (by simp [hdws])]]
  rw [show ([(' ' : Char)]).length = 1 from rfl]
  unfold valTry
  rw [show ((' ' : Char) :: (d :: v' ++ [(';' : Char)])).drop (0 + 1) =
      d :: v' ++ [(';' : Char)] from rfl]
  rw [valCheck_concat (d :: v') hv hd]

theorem matchDecl_declCore (w v : Txt) (hw : w ≠ [])
    (hwall : ∀ c ∈ w, isWordHyphen c = true) (hv : v ≠ [])
    (hd : v.all dotOk = true) (hh : v.dropWhile isJsWs = v) :
    matchDecl (declCore ('-' :: '-' :: w) v) = some ('-' :: '-' :: w, v) := by
  have hshape : declCore ('-' :: '-' :: w) v =
      '-' :: '-' :: (w ++ ':' :: ' ' :: (v ++ [(';' : Char)])) := by
    simp [declCore]
  rw [hshape]
  show (let w' := (w ++ ':' :: ' ' :: (v ++ [(';' : Char)])).takeWhile isWordHyphen
    if w'.isEmpty then none else
      match (w ++ ':' :: ' ' :: (v ++ [(';' : Char)])).drop w'.length with
      | ':' :: rest =>
        match valAfterColon rest with
        | some v' => some ('-' :: '-' :: w', v')
        | none => none
      | _ => none) = some ('-' :: '-' :: w, v)
  rw [show (w ++ ':' :: ' ' :: (v ++ [(';' : Char)])).takeWhile isWordHyphen = w
    from takeWhile_append_of_all _ w ':' _ hwall (by decide)]
  simp only [List.isEmpty_eq_false.mpr hw, List.drop_left]
  rw [valAfterColon_space v hv hd hh]
  rfl

theorem valCheck_some_last (r v : Txt) (h : valCheck r = some v) :
    r.getLast? = some ';' := by
  unfold valCheck at h
  split at h
  · next hcond =>
    simp only [Bool.and_eq_true, decide_eq_true_eq] at hcond
    exact hcond.1.1
  · exact Option.noConfusion h

theorem valTry_some (rest : Txt) : ∀ (k : Nat) (v : Txt),
    valTry rest k = some v → ∃ j, valCheck (rest.drop j) = some v := by
  intro k
  induction k with
  | zero =>
    intro v h
    exact ⟨0, by rw [List.drop_zero]; exact h⟩
  | succ k' ih =>
    intro v h
    rcases hvc : valCheck (rest.drop (k' + 1)) with - | v0
    · rw [show valTry rest (k' + 1) = valTry rest k' from by
        simp only [valTry, hvc]] at h
      exact ih v h
    · rw [show valTry rest (k' + 1) = some v0 from by
        simp only [valTry, hvc]] at h
      exact ⟨k' + 1, hvc.trans h⟩

theorem getLast?_append_right (x y : Txt) (hy : y ≠ []) :
    (x ++ y).getLast? = y.getLast? := by
  rw [List.getLast?_append]
  rcases hl : y.getLast? with - | a
  · exact absurd (List.getLast?_isSome.mpr hy) (by simp [hl])
  · rfl

theorem matchDecl_some_last (l : Txt) (kv : Txt × Txt)
    (h : matchDecl l = some kv) : l.getLast? = some ';' := by
  rw [matchDecl.eq_def] at h
  split at h
  all_goals try exact Option.noConfusion h
  next t =>
  dsimp only at h
  split at h
  all_goals try exact Option.noConfusion h
  next heq2 =>
  split at h
  all_goals try exact Option.noConfusion h
  next x rest heq3 =>
  rcases hva : valAfterColon rest with - | v0
  · rw [hva] at h
    exact Option.noConfusion h
  · obtain ⟨j, hj⟩ := valTry_some rest _ v0 hva
    have hlast : (rest.drop j).getLast? = some ';' :=
      valCheck_some_last _ _ hj
    have hne : rest.drop j ≠ [] := by
      intro he
      rw [he] at hlast
      exact Option.noConfusion hlast
    have hl : '-' :: '-' :: t = ('-' :: '-' ::
        (t.take (t.takeWhile isWordHyphen).length ++
          ':' :: rest.take j)) ++ rest.drop j := by
      conv_lhs => rw [← List.take_append_drop (t.takeWhile isWordHyphen).length t,
        heq3, ← List.take_append_drop j rest]
      simp [List.append_assoc]
    rw [hl, getLast?_append_right _ _ hne]
    exact hlast

theorem matchDecl_none_of_last (l : Txt) (h : l.getLast? ≠ some ';') :
    matchDecl l = none := by
  rcases hm : matchDecl l with - | kv
  · rfl
  · exact absurd (matchDecl_some_last l kv hm) h

/-! # Lemmas about rendered declaration lines -/

theorem declRender_eq (kv : Txt × Txt) :
    declRender kv = ' ' :: ' ' :: declCore kv.1 kv.2 := by
  simp only [declRender, declCore,
    show ("  ").data = ([' ', ' '] : Txt) from rfl,
    show (": ").data = ([':', ' '] : Txt) from rfl,
    show ((";").data : Txt) = [';'] from rfl]
  simp [List.append_assoc]

theorem jsTrim_declCore (w v : Txt) :
    jsTrim (' ' :: ' ' :: declCore ('-' :: '-' :: w) v) =
      declCore ('-' :: '-' :: w) v := by
  have hcons : declCore ('-' :: '-' :: w) v =
      '-' :: ('-' :: (w ++ ':' :: ' ' :: (v ++ [(';' : Char)]))) := by
    simp [declCore]
  have hconcat : declCore ('-' :: '-' :: w) v =
      ('-' :: '-' :: (w ++ ':' :: ' ' :: v)) ++ [(';' : Char)] := by
    simp [declCore, List.append_assoc]
  unfold jsTrim trimLeftTxt
  rw [List.dropWhile_cons, if_pos (by decide), List.dropWhile_cons,
    if_pos (by decide), hcons, List.dropWhile_cons, if_neg (by decide), ← hcons,
    hconcat]
  exact trimRight_concat_of_neg _ ';' (by decide)

theorem jsTrim_declCore_plain (w v : Txt) :
    jsTrim (declCore ('-' :: '-' :: w) v) = declCore ('-' :: '-' :: w) v := by
  have hcons : declCore ('-' :: '-' :: w) v =
      '-' :: ('-' :: (w ++ ':' :: ' ' :: (v ++ [(';' : Char)]))) := by
    simp [declCore]
  have hconcat : declCore ('-' :: '-' :: w) v =
      ('-' :: '-' :: (w ++ ':' :: ' ' :: v)) ++ [(';' : Char)] := by
    simp [declCore, List.append_assoc]
  unfold jsTrim trimLeftTxt
  rw [hcons, List.dropWhile_cons, if_neg (by decide), ← hcons, hconcat]
  exact trimRight_concat_of_neg _ ';' (by decide)

theorem firstLine_matchDecl_none (sel : Txt) :
    matchDecl (stripComments (jsTrim (sel ++ [' ', '{']))) = none := by
  have h1 : jsTrim (sel ++ [' ', '{']) =
      (sel ++ [' ']).dropWhile isJsWs ++ ['{'] := by
    unfold jsTrim trimLeftTxt
    rw [show sel ++ [' ', '{'] = (sel ++ [' ']) ++ ['{'] from by simp,
      dropWhile_concat_of_neg isJsWs _ '{' (by decide)]
    exact trimRight_concat_of_neg _ '{' (by decide)
  rw [h1]
  obtain ⟨out, hout⟩ := stripComments_concat ((sel ++ [' ']).dropWhile isJsWs)
    '{' (by decide) (by decide)
  rw [hout]
  apply matchDecl_none_of_last
  rw [List.getLast?_concat]
  decide

theorem declRender_nl_free (kv : Txt × Txt) (w : Txt)
    (hk : kv.1 = '-' :: '-' :: w) (hwall : ∀ c ∈ w, isWordHyphen c = true)
    (hd : kv.2.all dotOk = true) : ('\n' : Char) ∉ declRender kv := by
  rw [declRender_eq, hk]
  intro hmem
  simp only [declCore, List.cons_append, List.mem_cons, List.mem_append] at hmem
  rcases hmem with h | h | h | h | hmem'
  · exact absurd h (by decide)
  · exact absurd h (by decide)
  · exact absurd h (by decide)
  · exact absurd h (by decide)
  rcases hmem' with h | h | h | h
  · exact absurd (hwall _ h) (by decide)
  · exact absurd h (by decide)
  · exact absurd h (by decide)
  rcases h with h' | h' | h'
  · exact absurd ((List.all_eq_true.mp hd) _ h') (by decide)
  · exact absurd h' (by decide)
  · exact absurd h' (by simp)

theorem declCore_nl_free (k v w : Txt) (hk : k = '-' :: '-' :: w)
    (hwall : ∀ c ∈ w, isWordHyphen c = true) (hd : v.all dotOk = true) :
    ('\n' : Char) ∉ declCore k v := by
  intro h
  apply declRender_nl_free (k, v) w hk hwall hd
  rw [declRender_eq]
  exact List.mem_cons_of_mem _ (List.mem_cons_of_mem _ h)

theorem splitOnNl_nlfree (a : Txt) (ha : ('\n' : Char) ∉ a) :
    splitOnNl a = [a] := by
  induction a with
  | nil => rfl
  | cons c a' ih =>
    have hc : ¬c = '\n' := fun he => ha (he ▸ List.mem_cons_self c a')
    rw [splitOnNl.eq_def]
    simp only [if_neg hc]
    rw [ih fun hm => ha (List.mem_cons_of_mem _ hm)]

/-- Folding the per-line step over rendered declaration lines appends
the entries, provided keys are fresh and well-formed. -/
theorem foldl_lineStep_decls (mm : List (Txt × Txt)) : ∀ acc : VarMap,
    (∀ kv ∈ mm, ∃ w, kv.1 = '-' :: '-' :: w ∧ w ≠ [] ∧
      ∀ c ∈ w, isWordHyphen c = true) →
    (∀ kv ∈ mm, kv.2 ≠ [] ∧ jsTrim kv.2 = kv.2 ∧ kv.2.all dotOk = true) →
    (∀ kv ∈ mm, stripComments (declCore kv.1 kv.2) = declCore kv.1 kv.2) →
    (∀ k ∈ varKeys mm, k ∉ varKeys acc) →
    (varKeys mm).Nodup →
    List.foldl lineStep acc
      ((mm.map declRender).map (fun l => stripComments (jsTrim l))) =
      acc ++ mm := by
  induction mm with
  | nil => intro acc _ _ _ _ _; simp
  | cons kv mm' ih =>
    intro acc hkeys hvals hstrip hdisj hnd
    obtain ⟨w, hkw, hwne, hwall⟩ := hkeys kv (List.mem_cons_self _ _)
    obtain ⟨hvne, hvtrim, hvdot⟩ := hvals kv (List.mem_cons_self _ _)
    have hline : stripComments (jsTrim (declRender kv)) = declCore kv.1 kv.2 := by
      rw [declRender_eq, hkw, jsTrim_declCore w kv.2, ← hkw,
        hstrip kv (List.mem_cons_self _ _)]
    rw [List.map_cons, List.map_cons, List.foldl_cons, hline]
    have hmatch : matchDecl (declCore kv.1 kv.2) = some (kv.1, kv.2) := by
      rw [hkw]
      exact matchDecl_declCore w kv.2 hwne hwall hvne hvdot
        (jsTrim_fixed_left kv.2 hvtrim)
    have hstep : lineStep acc (declCore kv.1 kv.2) = acc ++ [kv] := by
      unfold lineStep
      rw [hmatch]
      show insertVar acc kv.1 (jsTrim kv.2) = acc ++ [kv]
      rw [hvtrim, insertVar_of_not_mem acc kv.1 kv.2
        (hdisj kv.1 (by rw [varKeys_cons]; exact List.mem_cons_self _ _))]
    rw [hstep]
    rw [varKeys_cons, List.nodup_cons] at hnd
    have hdisj' : ∀ k ∈ varKeys mm', k ∉ varKeys (acc ++ [kv]) := by
      intro k hk
      rw [varKeys_append, List.mem_append]
      push_neg
      refine ⟨hdisj k (by rw [varKeys_cons]; exact List.mem_cons_of_mem _ hk), ?_⟩
      rw [varKeys_cons, varKeys_nil]
      simp only [List.mem_singleton]
      exact fun he => hnd.1 (he ▸ hk)
    rw [ih (acc ++ [kv])
      (fun kv' h' => hkeys kv' (List.mem_cons_of_mem _ h'))
      (fun kv' h' => hvals kv' (List.mem_cons_of_mem _ h'))
      (fun kv' h' => hstrip kv' (List.mem_cons_of_mem _ h'))
      hdisj' hnd.2]
    simp

/-! # Lemmas about `beginsWith`, `subIndex`, `chFind` and `selSearch` -/

theorem beginsWith_self_append (p r : Txt) : beginsWith p (p ++ r) = true := by
  induction p with
  | nil => rfl
  | cons c p' ih => simp [beginsWith, ih]

theorem beginsWith_of_append (p q s : Txt)
    (h : beginsWith (p ++ q) s = true) : beginsWith p s = true := by
  induction p generalizing s with
  | nil => rfl
  | cons c p' ih =>
    cases s with
    | nil => exact absurd h (by simp [beginsWith])
    | cons d s' =>
      rw [List.cons_append] at h
      simp only [beginsWith, Bool.and_eq_true] at h ⊢
      exact ⟨h.1, ih s' h.2⟩

theorem subIndex_some (pat s : Txt) : ∀ n : Nat, subIndex pat s = some n →
    (∀ i < n, beginsWith pat (s.drop i) = false) ∧
      beginsWith pat (s.drop n) = true := by
  induction s with
  | nil =>
    intro n h
    unfold subIndex at h
    split at h
    · next hb =>
      cases h
      exact ⟨fun i hi => absurd hi (by omega), hb⟩
    · exact Option.noConfusion h
  | cons c rest ih =>
    intro n h
    unfold subIndex at h
    split at h
    · next hb =>
      cases h
      exact ⟨fun i hi => absurd hi (by omega), hb⟩
    · next hb =>
      rcases hsub : subIndex pat rest with - | n'
      · rw [hsub] at h
        exact Option.noConfusion h
      · rw [hsub] at h
        have hn : n = n' + 1 := by
          simpa using h.symm
        subst hn
        obtain ⟨hmin, hat⟩ := ih n' hsub
        refine ⟨?_, hat⟩
        intro i hi
        cases i with
        | zero =>
          rw [List.drop_zero]
          exact Bool.not_eq_true _ ▸ (by simpa using hb)
        | succ i' =>
          rw [show (c :: rest).drop (i' + 1) = rest.drop i' from rfl]
          exact hmin i' (by omega)

theorem subIndex_of (pat s : Txt) : ∀ n : Nat,
    (∀ i < n, beginsWith pat (s.drop i) = false) →
    beginsWith pat (s.drop n) = true → subIndex pat s = some n := by
  induction s with
  | nil =>
    intro n hmin hat
    have hn : n = 0 := by
      by_contra hne
      have h0 := hmin 0 (by omega)
      rw [List.drop_nil] at hat
      rw [List.drop_zero] at h0
      rw [h0] at hat
      exact Bool.noConfusion hat
    subst hn
    rw [List.drop_zero] at hat
    unfold subIndex
    rw [if_pos hat]
  | cons c rest ih =>
    intro n hmin hat
    cases n with
    | zero =>
      rw [List.drop_zero] at hat
      unfold subIndex
      rw [if_pos hat]
    | succ m =>
      have h0 : beginsWith pat (c :: rest) = false := by
        have := hmin 0 (by omega)
        rwa [List.drop_zero] at this
      unfold subIndex
      rw [if_neg (by simp [h0])]
      rw [ih m (fun i hi => hmin (i + 1) (by omega)) hat]
      rfl

theorem chFind_append_of_not_mem (c : Char) (xs ys : Txt) (h : c ∉ xs) :
    chFind c (xs ++ ys) = (chFind c ys).map (· + xs.length) := by
  induction xs with
  | nil => simp [Option.map_id']
  | cons a xs' ih =>
    have ha : ¬a = c := fun he => h (he ▸ List.mem_cons_self a xs')
    rw [List.cons_append,
      show chFind c (a :: (xs' ++ ys)) = if a = c then some 0
        else (chFind c (xs' ++ ys)).map (· + 1) from rfl,
      if_neg ha, ih fun hm => h (List.mem_cons_of_mem _ hm)]
    cases hy : chFind c ys with
    | none => simp
    | some x =>
      simp only [Option.map_some', Option.some.injEq, List.length_cons]
      omega

theorem chFind_cons_self (c : Char) (l : Txt) : chFind c (c :: l) = some 0 := by
  unfold chFind
  rw [if_pos rfl]

theorem braceScan_flat (C : Txt) (D : Txt)
    (hC : ∀ c ∈ C, ¬c = '{' ∧ ¬c = '}') :
    braceScan 1 (C ++ '}' :: D) = C.length + 1 := by
  induction C with
  | nil =>
    rw [List.nil_append]
    show braceScan 1 ('}' :: D) = 1
    unfold braceScan
    rw [if_neg (by omega)]
    have hstep : braceStep 1 '}' = 0 := by decide
    rw [hstep, braceScan_zeroD]
  | cons c C' ih =>
    obtain ⟨h1, h2⟩ := hC c (List.mem_cons_self _ _)
    rw [List.cons_append]
    unfold braceScan
    rw [if_neg (by omega)]
    have hstep : braceStep 1 c = 1 := by
      unfold braceStep
      rw [if_neg h1, if_neg h2]
    rw [hstep, ih fun c' hc' => hC c' (List.mem_cons_of_mem _ hc')]
    simp

theorem selAttempt_block (sel W C D : Txt) (hW : ∀ c ∈ W, isJsWs c = true)
    (hC2 : ('}' : Char) ∉ C) :
    selAttempt sel (sel ++ (W ++ ('{' :: (C ++ ('}' :: D))))) =
      some (sel.length + W.length + 1 + C.length + 1, C) := by
  unfold selAttempt
  rw [if_pos (beginsWith_self_append _ _), List.drop_left]
  dsimp only
  rw [show (W ++ ('{' :: (C ++ ('}' :: D)))).takeWhile isJsWs = W from
    takeWhile_append_of_all _ W '{' _ hW (by decide)]
  rw [List.drop_left]
  rw [if_pos (show (('{' : Char) :: (C ++ ('}' :: D))).head? = some '{' from rfl)]
  rw [List.tail_cons]
  have hfind : chFind '}' (C ++ ('}' :: D)) = some C.length := by
    rw [chFind_append_of_not_mem '}' C _ hC2, chFind_cons_self]
    simp
  rw [hfind]
  show some (sel.length + W.length + 1 + C.length + 1,
    (C ++ ('}' :: D)).take C.length) = _
  rw [List.take_left C ('}' :: D)]

theorem selSearch_at (sel : Txt) : ∀ (s : Txt) (n : Nat) (r : Nat × Txt),
    (∀ i < n, selAttempt sel (s.drop i) = none) →
    selAttempt sel (s.drop n) = some r →
    selSearch sel s = some (n, r.1, r.2) := by
  intro s
  induction s with
  | nil =>
    intro n r hmin hat
    have hn : n = 0 := by
      by_contra hne
      have h0 := hmin 0 (by omega)
      rw [List.drop_zero] at h0
      rw [List.drop_nil] at hat
      rw [h0] at hat
      exact Option.noConfusion hat
    subst hn
    rw [List.drop_zero] at hat
    unfold selSearch
    rw [hat]
  | cons c rest ih =>
    intro n r hmin hat
    cases n with
    | zero =>
      rw [List.drop_zero] at hat
      unfold selSearch
      rw [hat]
    | succ m =>
      have h0 : selAttempt sel (c :: rest) = none := by
        have := hmin 0 (by omega)
        rwa [List.drop_zero] at this
      unfold selSearch
      rw [h0, ih m r (fun i hi => hmin (i + 1) (by omega)) hat]
      rfl

/-! # Claim theorems -/

/-- C9: when the target file does not exist, `injectclyroTheme` returns
after the `fs.existsSync` guard: the filesystem is unchanged, no write
happens, and the not-found outcome is reported.  (The embedding is a
total function, so no exception escapes the engine.) -/
theorem runInject_missing_noop (files : Txt → Option Txt) (p : Txt)
    (h : files p = none) : runInject files p = (files, InjectOutcome.notFound) := by
  unfold runInject
  rw [h]

theorem runInject_missing_noop_witness :
    runInject (fun _ => none) (("app.css").data) =
      ((fun _ => none), InjectOutcome.notFound) :=
  runInject_missing_noop (fun _ => none) (("app.css").data) rfl

/-- C3: the spread `{ ...templateMap, ...userMap }` keeps every
template key (in template order, with the user's value whenever the
user map has the key, else the template's), and appends the user-only
keys in their original user order. -/
theorem mergeVars_spec (tpl user : VarMap)
    (_htpl : (varKeys tpl).Nodup) (huser : (varKeys user).Nodup) :
    varKeys (mergeVars tpl user) =
      varKeys tpl ++ (varKeys user).filter (fun k => k ∉ varKeys tpl)
    ∧ ∀ k : Txt, lookupVar (mergeVars tpl user) k =
        if k ∈ varKeys user then lookupVar user k else lookupVar tpl k :=
  ⟨mergeVars_keys user tpl huser, mergeVars_lookup user tpl huser⟩

theorem mergeVars_spec_witness :
    varKeys (mergeVars
        [(("--p").data, ("blue").data), (("--c").data, ("3").data)]
        [(("--p").data, ("red").data), (("--u").data, ("1").data)]) =
      varKeys [(("--p").data, ("blue").data), (("--c").data, ("3").data)] ++
        (varKeys [(("--p").data, ("red").data), (("--u").data, ("1").data)]).filter
          (fun k => k ∉
            varKeys [(("--p").data, ("blue").data), (("--c").data, ("3").data)]) :=
  (mergeVars_spec
    [(("--p").data, ("blue").data), (("--c").data, ("3").data)]
    [(("--p").data, ("red").data), (("--u").data, ("1").data)]
    (by decide) (by decide)).1

/-- C6: `extractBlock` returns empty when the keyword does not occur,
or when no `{` is found at or after its first occurrence; otherwise it
returns the slice from the first keyword occurrence through the brace
at which the depth counter (starting at 1 after the opening brace,
`{` +1, `}` −1) first returns to 0, and when the input ends before the
depth reaches 0 it returns the slice through end-of-input.  Being a
total function, it never throws. -/
theorem extractBlock_spec (content keyword : Txt) :
    (subIndex keyword content = none → extractBlock content keyword = [])
    ∧ (∀ s, subIndex keyword content = some s →
        chIndexFrom '{' content s = none → extractBlock content keyword = [])
    ∧ (∀ s q, subIndex keyword content = some s →
        chIndexFrom '{' content s = some q →
        extractBlock content keyword =
          sliceTxt content s (q + 1 + braceScan 1 (content.drop (q + 1)))
        ∧ ((depthRun 1 ((content.drop (q + 1)).take
              (braceScan 1 (content.drop (q + 1)))) = 0
            ∧ ∀ j < braceScan 1 (content.drop (q + 1)),
                depthRun 1 ((content.drop (q + 1)).take j) ≠ 0)
          ∨ (braceScan 1 (content.drop (q + 1)) = (content.drop (q + 1)).length
            ∧ ∀ j ≤ (content.drop (q + 1)).length,
                depthRun 1 ((content.drop (q + 1)).take j) ≠ 0))) := by
  refine ⟨?_, ?_, ?_⟩
  · intro h
    simp [extractBlock, h]
  · intro s hs hq
    simp [extractBlock, hs, hq]
  · intro s q hs hq
    refine ⟨by simp [extractBlock, hs, hq], ?_⟩
    exact braceScan_minimal (content.drop (q + 1)) 1 (by omega)

theorem extractBlock_spec_witness :
    subIndex ((":r").data) ((":r \x7ba\x7b\x7db\x7d t").data) = some 0
    ∧ chIndexFrom '{' ((":r \x7ba\x7b\x7db\x7d t").data) 0 = some 3
    ∧ extractBlock ((":r \x7ba\x7b\x7db\x7d t").data) ((":r").data) =
        sliceTxt ((":r \x7ba\x7b\x7db\x7d t").data) 0
          (3 + 1 + braceScan 1 (((":r \x7ba\x7b\x7db\x7d t").data).drop (3 + 1))) :=
  ⟨by decide, by decide,
    ((extractBlock_spec ((":r \x7ba\x7b\x7db\x7d t").data) ((":r").data)).2.2 0 3
      (by decide) (by decide)).1⟩

set_option maxRecDepth 400000 in
/-- C1 (code bug): the merge is not idempotent.  On an input consisting
of one at-import line with a leading space, the line is captured into
the import list (capture trims before testing) but not removed by
`IMPORT_REGEX` (anchored at the line start), so it survives in the
leftover content; the second run captures it again and the collected
list of imports grows, giving a different output. -/
theorem mergeTwice_not_idempotent :
    finalImportList (injectPure ((" @import a;").data)) =
      [("@import a;").data, ("@import \"tailwindcss\";").data,
       ("@import \"tw-animate-css\";").data, ("@import a;").data]
    ∧ injectPure (injectPure ((" @import a;").data)) ≠
        injectPure ((" @import a;").data) :=
  ⟨by decide, by decide⟩

/-- C5 (code bug): an at-import line with a leading space is captured
into the import list, yet the replace with `IMPORT_REGEX` does not
remove it (the regex requires the at-import keyword at the line
start), so the captured line still appears in the residual text. -/
theorem capturedImport_not_removed :
    capturedImportLines ((" @import a;").data) = [("@import a;").data]
    ∧ removeImportMatches ((" @import a;").data) = ((" @import a;").data)
    ∧ workingAfterImports ((" @import a;").data) = (("@import a;").data) :=
  ⟨by decide, by decide, by decide⟩

/-- C4 (counterexample): user import lines are *not* deduplicated — a
file containing `@import "tailwindcss";` twice yields an import list of
three lines with the tailwindcss line twice, not the two lines the
claim asserts; only the append of required imports is guarded. -/
theorem importDedup_counterexample :
    finalImportList (("@import \"tailwindcss\";\n@import \"tailwindcss\";").data) =
      [("@import \"tailwindcss\";").data, ("@import \"tailwindcss\";").data,
       ("@import \"tw-animate-css\";").data]
    ∧ (finalImportList
        (("@import \"tailwindcss\";\n@import \"tailwindcss\";").data)).length ≠ 2 :=
  ⟨by decide, by decide⟩

/-- C4 (amended): captured user import lines are kept verbatim, with
duplicates, in encounter order; each required import is appended only
when absent from the captured list.  For the doubled-tailwind input
this yields three output lines, the user's line twice. -/
theorem finalImportList_spec :
    (∀ u : Txt, finalImportList u =
      capturedImportLines u ++
        requiredImportLines.filter (fun r => r ∉ capturedImportLines u))
    ∧ finalImportList (("@import \"tailwindcss\";\n@import \"tailwindcss\";").data) =
        [("@import \"tailwindcss\";").data, ("@import \"tailwindcss\";").data,
         ("@import \"tw-animate-css\";").data] := by
  constructor
  · intro u
    show withRequired (capturedImportLines u) = _
    generalize capturedImportLines u = c
    unfold withRequired requiredImportLines
    simp only [List.foldl_cons, List.foldl_nil, List.filter_cons, List.filter_nil]
    by_cases h1 : ("@import \"tailwindcss\";").data ∈ c
    · by_cases h2 : ("@import \"tw-animate-css\";").data ∈ c
      · simp [h1, h2]
      · simp [h1, h2]
    · by_cases h2 : ("@import \"tw-animate-css\";").data ∈ c
      · have hmem : ("@import \"tw-animate-css\";").data ∈
            c ++ [("@import \"tailwindcss\";").data] :=
          List.mem_append_left _ h2
        simp [h1, h2, hmem]
      · have hnot : ("@import \"tw-animate-css\";").data ∉
            c ++ [("@import \"tailwindcss\";").data] := by
          rw [List.mem_append]
          push_neg
          exact ⟨h2, by decide⟩
        simp [h1, h2, hnot, List.append_assoc]
  · decide

/-- C2 (counterexample): the round-trip law fails for a map whose key
is a non-empty string without the `--` prefix: `buildBlock` renders the
entry but `extractVars` only matches `--`-prefixed declarations, so the
entry is lost. -/
theorem roundTrip_counterexample :
    extractVars (buildBlock ((":root").data) [(("a").data, ("1").data)]) = []
    ∧ extractVars (buildBlock ((":root").data) [(("a").data, ("1").data)]) ≠
        [(("a").data, ("1").data)] :=
  ⟨by decide, by decide⟩

/-- C2 (amended): the round-trip law `extractVars (buildBlock sel m) = m`
holds for well-formed `VariableMap`s: unique keys of the shape `--`
followed by a non-empty run of word/hyphen characters, and non-empty
single-line values that carry no surrounding whitespace and survive
comment stripping; the selector must be a single line. -/
theorem extractVars_buildBlock_roundTrip (sel : Txt) (m : VarMap)
    (hsel : ('\n' : Char) ∉ sel)
    (hkeys : ∀ kv ∈ m, ∃ w, kv.1 = '-' :: '-' :: w ∧ w ≠ [] ∧
      ∀ c ∈ w, isWordHyphen c = true)
    (hvals : ∀ kv ∈ m, kv.2 ≠ [] ∧ jsTrim kv.2 = kv.2 ∧ kv.2.all dotOk = true)
    (hstrip : ∀ kv ∈ m, stripComments (declCore kv.1 kv.2) = declCore kv.1 kv.2)
    (hnd : (varKeys m).Nodup) :
    extractVars (buildBlock sel m) = m := by
  have hbb : buildBlock sel m = (sel ++ [' ', '{']) ++ '\n' ::
      (joinWith [ '\n' ] (m.map declRender) ++ '\n' :: ['}']) := by
    simp only [buildBlock,
      show (" \x7b\n").data = ([' ', '{', '\n'] : Txt) from rfl,
      show ("\n\x7d").data = (['\n', '}'] : Txt) from rfl,
      show (("\n").data : Txt) = ['\n'] from rfl]
    simp [List.append_assoc]
  have hnlsel : ('\n' : Char) ∉ sel ++ [' ', '{'] := by
    intro hmem
    rcases List.mem_append.mp hmem with h | h
    · exact hsel h
    · revert h
      decide
  rw [hbb]
  unfold extractVars
  rw [splitOnNl_append_nlfree _ _ hnlsel, List.map_cons, List.foldl_cons]
  have hfirst : lineStep [] (stripComments (jsTrim (sel ++ [' ', '{']))) = [] := by
    unfold lineStep
    rw [firstLine_matchDecl_none sel]
  rw [hfirst]
  cases m with
  | nil => decide
  | cons kv0 mm0 =>
    have hmapne : (kv0 :: mm0).map declRender ≠ [] := by simp
    have hmapnl : ∀ x ∈ (kv0 :: mm0).map declRender, ('\n' : Char) ∉ x := by
      intro x hx
      obtain ⟨kv, hkv, rfl⟩ := List.mem_map.mp hx
      obtain ⟨w, hkw, -, hwall⟩ := hkeys kv hkv
      exact declRender_nl_free kv w hkw hwall (hvals kv hkv).2.2
    rw [splitOnNl_joinWith _ _ hmapnl hmapne,
      show splitOnNl ['}'] = [['}']] from rfl,
      List.map_append, List.foldl_append,
      foldl_lineStep_decls (kv0 :: mm0) [] hkeys hvals hstrip
        (fun k _ => by rw [varKeys_nil]; exact List.not_mem_nil k) hnd]
    rw [show List.map (fun l => stripComments (jsTrim l)) [['}']] =
      [['}']] from by decide]
    rw [show List.foldl lineStep ([] ++ (kv0 :: mm0)) [['}']] =
      [] ++ (kv0 :: mm0) from by
        rw [List.foldl_cons, show lineStep ([] ++ (kv0 :: mm0)) ['}'] =
          [] ++ (kv0 :: mm0) from by unfold lineStep; rfl]
        rfl]
    simp

theorem extractVars_buildBlock_roundTrip_witness :
    extractVars (buildBlock ((":root").data) [(("--a").data, ("1").data)]) =
      [(("--a").data, ("1").data)] := by
  apply extractVars_buildBlock_roundTrip
  · decide
  · intro kv hkv
    rw [List.mem_singleton] at hkv
    subst hkv
    exact ⟨("a").data, by decide, by decide, by decide⟩
  · intro kv hkv
    rw [List.mem_singleton] at hkv
    subst hkv
    exact ⟨by decide, by decide, by decide⟩
  · intro kv hkv
    rw [List.mem_singleton] at hkv
    subst hkv
    decide
  · decide

/-- C7 (counterexample): the claim's example line `--a: 1; /* note */`
yields *no* entry: trimming happens before comment stripping, so the
removal leaves a trailing space and the `;$` anchor fails. -/
theorem inlineComment_counterexample :
    extractVars (("--a: 1; /* note */").data) = []
    ∧ extractVars (("--a: 1; /* note */").data) ≠
        [(("--a").data, ("1").data)] :=
  ⟨by decide, by decide⟩

/-- C7 (corrected/amended): each line is trimmed *before* the inline
comment is stripped, so a declaration followed by a space-separated
inline comment leaves trailing whitespace and produces no entry (the
claim's example `--a: 1; /* note */` yields the empty map), while a
comment glued to the semicolon works; and when the same name is
declared on two lines, the later line's value wins. -/
theorem extractVars_comment_lastWrite (w v1 v2 : Txt) (hw : w ≠ [])
    (hwall : ∀ c ∈ w, isWordHyphen c = true)
    (hv1 : v1 ≠ [] ∧ jsTrim v1 = v1 ∧ v1.all dotOk = true)
    (hv2 : v2 ≠ [] ∧ jsTrim v2 = v2 ∧ v2.all dotOk = true)
    (hs1 : stripComments (declCore ('-' :: '-' :: w) v1) =
      declCore ('-' :: '-' :: w) v1)
    (hs2 : stripComments (declCore ('-' :: '-' :: w) v2) =
      declCore ('-' :: '-' :: w) v2) :
    extractVars (("--a: 1; /* note */").data) = []
    ∧ extractVars (("--a: 1;/* note */").data) = [(("--a").data, ("1").data)]
    ∧ extractVars (declCore ('-' :: '-' :: w) v1 ++ '\n' ::
        declCore ('-' :: '-' :: w) v2) = [('-' :: '-' :: w, v2)] := by
  refine ⟨by decide, by decide, ?_⟩
  have hnl1 : ('\n' : Char) ∉ declCore ('-' :: '-' :: w) v1 :=
    declCore_nl_free _ v1 w rfl hwall hv1.2.2
  have hnl2 : ('\n' : Char) ∉ declCore ('-' :: '-' :: w) v2 :=
    declCore_nl_free _ v2 w rfl hwall hv2.2.2
  unfold extractVars
  rw [splitOnNl_append_nlfree _ _ hnl1, splitOnNl_nlfree _ hnl2]
  have hline1 : stripComments (jsTrim (declCore ('-' :: '-' :: w) v1)) =
      declCore ('-' :: '-' :: w) v1 := by
    rw [jsTrim_declCore_plain, hs1]
  have hline2 : stripComments (jsTrim (declCore ('-' :: '-' :: w) v2)) =
      declCore ('-' :: '-' :: w) v2 := by
    rw [jsTrim_declCore_plain, hs2]
  rw [List.map_cons, List.map_singleton, hline1, hline2,
    List.foldl_cons, List.foldl_cons, List.foldl_nil]
  have hm1 : matchDecl (declCore ('-' :: '-' :: w) v1) =
      some ('-' :: '-' :: w, v1) :=
    matchDecl_declCore w v1 hw hwall hv1.1 hv1.2.2
      (jsTrim_fixed_left v1 hv1.2.1)
  have hm2 : matchDecl (declCore ('-' :: '-' :: w) v2) =
      some ('-' :: '-' :: w, v2) :=
    matchDecl_declCore w v2 hw hwall hv2.1 hv2.2.2
      (jsTrim_fixed_left v2 hv2.2.1)
  rw [show lineStep [] (declCore ('-' :: '-' :: w) v1) =
      [('-' :: '-' :: w, v1)] from by
    unfold lineStep
    rw [hm1]
    show insertVar [] ('-' :: '-' :: w) (jsTrim v1) = _
    rw [hv1.2.1]
    rfl]
  unfold lineStep
  rw [hm2]
  show insertVar [('-' :: '-' :: w, v1)] ('-' :: '-' :: w) (jsTrim v2) = _
  rw [hv2.2.1]
  simp [insertVar]

theorem extractVars_comment_lastWrite_witness :
    extractVars (declCore ('-' :: '-' :: ("a").data) (("1").data) ++ '\n' ::
        declCore ('-' :: '-' :: ("a").data) (("2").data)) =
      [('-' :: '-' :: ("a").data, ("2").data)] :=
  (extractVars_comment_lastWrite (("a").data) (("1").data) (("2").data)
    (by decide) (by decide) ⟨by decide, by decide, by decide⟩
    ⟨by decide, by decide, by decide⟩ (by decide) (by decide)).2.2

/-- C8 (counterexample): on a `:root` block containing nested braces
the lazy regex `ROOT_REGEX` stops at the first `}`, while the
brace-counting `extractBlock` continues to the matching `}`; the
section the assembler operates on is not the Block Extractor's block. -/
theorem regexBlock_counterexample :
    selMatchedSection ((":root").data) ((":root \x7ba\x7bb\x7dc\x7d").data) =
      some ((":root \x7ba\x7bb\x7d").data)
    ∧ extractBlock ((":root \x7ba\x7bb\x7dc\x7d").data) ((":root").data) =
        ((":root \x7ba\x7bb\x7dc\x7d").data)
    ∧ selMatchedSection ((":root").data) ((":root \x7ba\x7bb\x7dc\x7d").data) ≠
        some (extractBlock ((":root \x7ba\x7bb\x7dc\x7d").data) ((":root").data)) :=
  ⟨by decide, by decide, by decide⟩

/-- C8 (amended): the regex-based location agrees with the
brace-counting Block Extractor exactly on flat sections: when the first
occurrence of the selector is followed by whitespace, `{`, a
brace-free body and `}`, the regex match, the captured group, the
regex strip and the Block-Extractor-based strip all coincide. -/
theorem regexBlock_agreesFlat (sel A W C D : Txt)
    (hfirst : subIndex sel
      (A ++ (sel ++ (W ++ ('{' :: (C ++ ('}' :: D)))))) = some A.length)
    (hW : ∀ c ∈ W, isJsWs c = true)
    (hselB : ('{' : Char) ∉ sel)
    (hC1 : ('{' : Char) ∉ C) (hC2 : ('}' : Char) ∉ C) :
    extractBlock (A ++ (sel ++ (W ++ ('{' :: (C ++ ('}' :: D)))))) sel =
      sel ++ (W ++ ('{' :: (C ++ [('}' : Char)])))
    ∧ selMatchedSection sel (A ++ (sel ++ (W ++ ('{' :: (C ++ ('}' :: D)))))) =
      some (sel ++ (W ++ ('{' :: (C ++ [('}' : Char)]))))
    ∧ selGroupOf sel (A ++ (sel ++ (W ++ ('{' :: (C ++ ('}' :: D)))))) = C
    ∧ replaceSelOnce sel (A ++ (sel ++ (W ++ ('{' :: (C ++ ('}' :: D)))))) =
      A ++ D
    ∧ replaceOnce (A ++ (sel ++ (W ++ ('{' :: (C ++ ('}' :: D))))))
        (extractBlock (A ++ (sel ++ (W ++ ('{' :: (C ++ ('}' :: D)))))) sel) =
      A ++ D := by
  have hdropA : (A ++ (sel ++ (W ++ ('{' :: (C ++ ('}' :: D)))))).drop A.length =
      sel ++ (W ++ ('{' :: (C ++ ('}' :: D)))) := List.drop_left A _
  have hregroupB : sel ++ (W ++ ('{' :: (C ++ ('}' :: D)))) =
      (sel ++ (W ++ ('{' :: (C ++ [('}' : Char)])))) ++ D := by
    simp [List.append_assoc]
  have hregroup1 : A ++ (sel ++ (W ++ ('{' :: (C ++ ('}' :: D))))) =
      (A ++ (sel ++ (W ++ ['{']))) ++ (C ++ ('}' :: D)) := by
    simp [List.append_assoc]
  have hregroup2 : A ++ (sel ++ (W ++ ('{' :: (C ++ ('}' :: D))))) =
      (A ++ (sel ++ (W ++ ('{' :: (C ++ [('}' : Char)]))))) ++ D := by
    simp [List.append_assoc]
  have hq : chIndexFrom '{' (A ++ (sel ++ (W ++ ('{' :: (C ++ ('}' :: D))))))
      A.length = some (A.length + (sel.length + W.length)) := by
    unfold chIndexFrom
    rw [hdropA, chFind_append_of_not_mem '{' sel _ hselB]
    have hWnot : ('{' : Char) ∉ W := fun hm => absurd (hW '{' hm) (by decide)
    rw [chFind_append_of_not_mem '{' W _ hWnot, chFind_cons_self]
    simp only [Option.map_some', Option.some.injEq]
    omega
  have hdropq : (A ++ (sel ++ (W ++ ('{' :: (C ++ ('}' :: D)))))).drop
      (A.length + (sel.length + W.length) + 1) = C ++ ('}' :: D) := by
    rw [hregroup1, show A.length + (sel.length + W.length) + 1 =
        (A ++ (sel ++ (W ++ ['{']))).length from by
      simp only [List.length_append, List.length_cons, List.length_nil]
      omega]
    exact List.drop_left _ _
  have hCpair : ∀ c ∈ C, ¬c = '{' ∧ ¬c = '}' := fun c hc =>
    ⟨fun he => hC1 (he ▸ hc), fun he => hC2 (he ▸ hc)⟩
  have hslice : ∀ e : Nat,
      e = A.length + sel.length + W.length + 1 + C.length + 1 →
      sliceTxt (A ++ (sel ++ (W ++ ('{' :: (C ++ ('}' :: D)))))) A.length e =
        sel ++ (W ++ ('{' :: (C ++ [('}' : Char)]))) := by
    intro e he
    unfold sliceTxt
    rw [hregroup2, show e =
        (A ++ (sel ++ (W ++ ('{' :: (C ++ [('}' : Char)]))))).length from by
      rw [he]
      simp only [List.length_append, List.length_cons, List.length_nil]
      omega]
    rw [List.take_left, List.drop_left]
  have hdropD : ∀ e : Nat,
      e = A.length + sel.length + W.length + 1 + C.length + 1 →
      (A ++ (sel ++ (W ++ ('{' :: (C ++ ('}' :: D)))))).drop e = D := by
    intro e he
    rw [hregroup2, show e =
        (A ++ (sel ++ (W ++ ('{' :: (C ++ [('}' : Char)]))))).length from by
      rw [he]
      simp only [List.length_append, List.length_cons, List.length_nil]
      omega]
    exact List.drop_left _ _
  have hextract : extractBlock (A ++ (sel ++ (W ++ ('{' :: (C ++ ('}' :: D))))))
      sel = sel ++ (W ++ ('{' :: (C ++ [('}' : Char)]))) := by
    unfold extractBlock
    rw [hfirst]
    dsimp only
    rw [hq]
    dsimp only
    rw [hdropq, braceScan_flat C D hCpair]
    exact hslice _ (by omega)
  have hmin := (subIndex_some sel _ A.length hfirst).1
  have hattnone : ∀ i < A.length, selAttempt sel
      ((A ++ (sel ++ (W ++ ('{' :: (C ++ ('}' :: D)))))).drop i) = none := by
    intro i hi
    unfold selAttempt
    rw [hmin i hi]
    simp
  have hsearch : selSearch sel (A ++ (sel ++ (W ++ ('{' :: (C ++ ('}' :: D)))))) =
      some (A.length, sel.length + W.length + 1 + C.length + 1, C) := by
    apply selSearch_at sel _ A.length
      (sel.length + W.length + 1 + C.length + 1, C) hattnone
    rw [hdropA]
    exact selAttempt_block sel W C D hW hC2
  refine ⟨hextract, ?_, ?_, ?_, ?_⟩
  · unfold selMatchedSection
    rw [hsearch]
    simp only [Option.map_some', Option.some.injEq]
    exact hslice _ (by omega)
  · unfold selGroupOf
    rw [hsearch]
  · unfold replaceSelOnce
    rw [hsearch]
    dsimp only
    rw [show (A ++ (sel ++ (W ++ ('{' :: (C ++ ('}' :: D)))))).take A.length =
      A from List.take_left A _]
    rw [hdropD _ (by omega)]
  · rw [hextract]
    have hsubB : subIndex (sel ++ (W ++ ('{' :: (C ++ [('}' : Char)]))))
        (A ++ (sel ++ (W ++ ('{' :: (C ++ ('}' :: D)))))) = some A.length := by
      apply subIndex_of
      · intro i hi
        cases hB : beginsWith (sel ++ (W ++ ('{' :: (C ++ [('}' : Char)]))))
            ((A ++ (sel ++ (W ++ ('{' :: (C ++ ('}' :: D)))))).drop i) with
        | false => rfl
        | true =>
          have hsel' := beginsWith_of_append sel _ _ hB
          rw [hmin i hi] at hsel'
          exact Bool.noConfusion hsel'
      · rw [hdropA, hregroupB]
        exact beginsWith_self_append _ _
    unfold replaceOnce
    rw [hsubB]
    dsimp only
    rw [show (A ++ (sel ++ (W ++ ('{' :: (C ++ ('}' :: D)))))).take A.length =
      A from List.take_left A _]
    rw [hdropD _ (by
      simp only [List.length_append, List.length_cons, List.length_nil]
      omega)]

theorem regexBlock_agreesFlat_witness :
    extractBlock (("x :root \x7b --a: 1; \x7d y").data) ((":root").data) =
      ((":root \x7b --a: 1; \x7d").data)
    ∧ selGroupOf ((":root").data) (("x :root \x7b --a: 1; \x7d y").data) =
      ((" --a: 1; ").data)
    ∧ replaceSelOnce ((":root").data) (("x :root \x7b --a: 1; \x7d y").data) =
      (("x  y").data) := by
  have h := regexBlock_agreesFlat ((":root").data) (("x ").data) ((" ").data)
    ((" --a: 1; ").data) ((" y").data) (by decide) (by decide) (by decide)
    (by decide) (by decide)
  exact ⟨h.1, h.2.2.1, h.2.2.2.1⟩

/-- C10 (counterexample): a second `:root` block that sits inside the
user's `@layer base` block is *not* preserved in the leftover content:
the `@layer base` strip removes it wholesale, leaving an empty
leftover. -/
theorem laterRoot_counterexample :
    containsTxt ((":root \x7b--a: 1;\x7d\n@layer base \x7b\n:root \x7b--b: 2;\x7d\n\x7d").data)
        ((":root \x7b--b: 2;\x7d").data) = true
    ∧ strippedWorking
        ((":root \x7b--a: 1;\x7d\n@layer base \x7b\n:root \x7b--b: 2;\x7d\n\x7d").data) = []
    ∧ containsTxt (strippedWorking
        ((":root \x7b--a: 1;\x7d\n@layer base \x7b\n:root \x7b--b: 2;\x7d\n\x7d").data))
        ((":root \x7b--b: 2;\x7d").data) = false :=
  ⟨by decide, by decide, by decide⟩

/-- C10 (amended): only the first `:root` block feeds variable
extraction, and for two consecutive top-level `:root` blocks the second
is preserved verbatim in the leftover content while only the first is
stripped. -/
theorem laterRoot_preserved_flat :
    extractVars (selGroupOf ((":root").data)
        (workingAfterImports ((":root \x7b--a: 1;\x7d\n:root \x7b--b: 2;\x7d").data))) =
      [(("--a").data, ("1").data)]
    ∧ strippedWorking ((":root \x7b--a: 1;\x7d\n:root \x7b--b: 2;\x7d").data) =
        ((":root \x7b--b: 2;\x7d").data)
    ∧ containsTxt
        (strippedWorking ((":root \x7b--a: 1;\x7d\n:root \x7b--b: 2;\x7d").data))
        ((":root \x7b--b: 2;\x7d").data) = true :=
  ⟨by decide, by decide, by decide⟩
